import Mathlib

/-!
Verification of the HypE hypervolume-indicator engine (deap:
`deap/tools/_hypervolume/hype.py` and `deap/tools/indicator.py`).

Numbers are modelled by the rationals; numpy arrays by lists.  The
randomly drawn sample matrix of the Monte-Carlo estimator is passed in
explicitly, and the external hypervolume primitive `hv.hypervolume`
(an opaque collaborator per the spec) is a function parameter.
Fallible code paths (a missing reference point, a rank `k` larger than
the front) are modelled by `Option`-returning wrappers.
-/

namespace Deap

/-- A point: a fixed-length sequence of rational coordinates. -/
abbrev Point := List ℚ

/-- A front: an ordered sequence of points. -/
abbrev Front := List Point

/-- Coordinate access `p[d]`, with 0 outside the array (well-formed
inputs never access out of range). -/
def coord (p : Point) (d : ℕ) : ℚ := p.getD d 0

/-- Transcription of the alpha loop of `hypeIndicatorExact`
(hype.py lines 109-112): `alpha[0] = 1`; for `i` in `1..k-1`,
`alpha[i] = alpha[i-1]*(k-i)/(nrP-i)`; all other entries stay 0. -/
def alphaRawExact (nrP k : ℕ) : ℕ → ℚ
  | 0 => 1
  | i + 1 =>
    if i + 1 < k then
      alphaRawExact nrP k i * ((k : ℚ) - (i + 1)) / ((nrP : ℚ) - (i + 1))
    else 0

/-- Final alpha of `hypeIndicatorExact` (hype.py line 113): elementwise
division by `1, 2, ..., nrP`. -/
def alphaExact (nrP k : ℕ) (i : ℕ) : ℚ := alphaRawExact nrP k i / ((i : ℚ) + 1)

/-- Transcription of the alpha loop of `hypeIndicatorSampled`
(hype.py lines 58-61), textually identical to the one of
`hypeIndicatorExact`. -/
def alphaRawSampled (nrP k : ℕ) : ℕ → ℚ
  | 0 => 1
  | i + 1 =>
    if i + 1 < k then
      alphaRawSampled nrP k i * ((k : ℚ) - (i + 1)) / ((nrP : ℚ) - (i + 1))
    else 0

/-- Final alpha of `hypeIndicatorSampled` (hype.py line 62). -/
def alphaSampled (nrP k : ℕ) (i : ℕ) : ℚ := alphaRawSampled nrP k i / ((i : ℚ) + 1)

/-- A front row paired with its original front index (the `pvec` entry
tracking which original index the row corresponds to). -/
abbrev IdxPoint := Point × ℕ

/-- Comparison by the active coordinate, used to sort rows. -/
def keyLe (d : ℕ) (p q : IdxPoint) : Prop := coord p.1 d ≤ coord q.1 d

instance (d : ℕ) : DecidableRel (keyLe d) :=
  fun _ _ => inferInstanceAs (Decidable (_ ≤ _))

instance (d : ℕ) : IsTotal IdxPoint (keyLe d) := ⟨fun _ _ => le_total _ _⟩

instance (d : ℕ) : IsTrans IdxPoint (keyLe d) := ⟨fun _ _ _ => le_trans⟩

/-- The argsort-and-permute step of `hypeSub` (hype.py lines 117-119):
sort the rows ascending by coordinate `d`, carrying the index map along
(a stable ascending sort, the documented reading of `argsort`). -/
def sortByDim (d : ℕ) (A : List IdxPoint) : List IdxPoint :=
  List.insertionSort (keyLe d) A

/-- `S[i, d]` of a (sorted) row list, 0 outside the array. -/
def pt (L : List IdxPoint) (i d : ℕ) : ℚ := coord (L.getD i ([], 0)).1 d

/-- Extrusion at sorted position `i` (hype.py lines 122-126): the gap to
the next row on axis `d`, or to the reference coordinate for the last row. -/
def extrusion (refd : ℚ) (d : ℕ) (L : List IdxPoint) (i : ℕ) : ℚ :=
  (if i < L.length - 1 then pt L (i + 1) d else refd) - pt L i d

/-- Base-case loop of `hypeSub` (`actDim = 0`, hype.py lines 127-129):
`h[pvec[0..i]] += extrusion * alpha[i]` whenever `i+1 <= k`, written as a
pointwise update of the accumulator. -/
def hypeLoopBase (k : ℕ) (alpha : ℕ → ℚ) (refd : ℚ) (L : List IdxPoint) : ℕ → ℚ :=
  (List.range L.length).foldl
    (fun h i => fun j =>
      h j +
        if i + 1 ≤ k ∧ j ∈ (L.take (i + 1)).map Prod.snd then
          extrusion refd 0 L i * alpha i
        else 0)
    (fun _ => 0)

/-- Recursive-case loop of `hypeSub` (`actDim > 0`, hype.py lines 130-131):
`h += extrusion * hypeSub(S[0..i], actDim-1, pvec[0..i])` whenever the
extrusion is positive; no recursive call otherwise. -/
def hypeLoopRec (d : ℕ) (refd : ℚ) (rec : List IdxPoint → ℕ → ℚ)
    (L : List IdxPoint) : ℕ → ℚ :=
  (List.range L.length).foldl
    (fun h i => fun j =>
      h j +
        if 0 < extrusion refd d L i then
          extrusion refd d L i * rec (L.take (i + 1)) j
        else 0)
    (fun _ => 0)

/-- `hypeSub` (hype.py lines 115-132): sort by the active dimension, then
accumulate per-position contributions; the result maps original front
indices to accumulated contributions. -/
def hypeSub (k : ℕ) (alpha : ℕ → ℚ) (ref : Point) : ℕ → List IdxPoint → ℕ → ℚ
  | 0, A => hypeLoopBase k alpha (coord ref 0) (sortByDim 0 A)
  | d + 1, A =>
    hypeLoopRec (d + 1) (coord ref (d + 1))
      (fun B => hypeSub k alpha ref d B) (sortByDim (d + 1) A)

/-- `hypeIndicatorExact` (hype.py lines 107-134) for a present reference
point: invoke `hypeSub` with the full front, `actDim = dim - 1` and the
identity index map. -/
def hypeIndicatorExact (points : Front) (k : ℕ) (ref : Point) : List ℚ :=
  let nrP := points.length
  let dim := (points.headD []).length
  (List.range nrP).map
    (hypeSub k (alphaExact nrP k) ref (dim - 1) (points.zip (List.range nrP)))

/-- `hypeIndicatorExact` with its fallible behavior explicit: the alpha
loop writes out of bounds when `k` exceeds the front size (and the shape
unpacking fails on an empty front), and `hypeSub` dereferences
`ref[actDim]`, so a missing reference point raises a type error. -/
def hypeIndicatorExactOpt (points : Front) (k : ℕ) (ref : Option Point) :
    Option (List ℚ) :=
  if points.length = 0 ∨ points.length < k then none
  else
    match ref with
    | none => none
    | some r => some (hypeIndicatorExact points k r)

/-- Domination test of hype.py lines 76-77 and 82-83: the number of
coordinates with `sample - point >= 0` equals `dim`. -/
def domB (dim : ℕ) (p s : Point) : Bool :=
  decide ((List.range dim).countP (fun d => decide (0 ≤ coord s d - coord p d)) = dim)

/-- Coordinate-wise minimum over the front rows (`np.min(points, 0)`). -/
def coordMin : Front → Point
  | [] => []
  | p :: rest => rest.foldl (fun acc q => List.zipWith min acc q) p

/-- Coordinate-wise maximum over the front rows (`np.max(points, 0)`). -/
def coordMax : Front → Point
  | [] => []
  | p :: rest => rest.foldl (fun acc q => List.zipWith max acc q) p

/-- Per-sample domination counters (hype.py lines 74-78), folding over the
front indices and incrementing the counter of every dominated sample. -/
def dominatedCounts (points : Front) (dim : ℕ) (S : Front) : ℕ → ℕ :=
  (List.range points.length).foldl
    (fun cnt j => fun s =>
      if domB dim (points.getD j []) (S.getD s []) then cnt s + 1 else cnt s)
    (fun _ => 0)

/-- `hypeIndicatorSampled` (hype.py lines 55-87) with the randomly drawn
sample matrix `S` passed explicitly and the reference point present.
`BoxU` equals `ref` in this case, and the box volume and integration
scaling follow line 87. -/
def hypeIndicatorSampledWith (points : Front) (k : ℕ) (ref : Point) (S : Front) :
    List ℚ :=
  let nrP := points.length
  let dim := (points.headD []).length
  let alpha := alphaSampled nrP k
  let BoxL := coordMin points
  let BoxU := ref
  let dominated := dominatedCounts points dim S
  let F : ℕ → ℚ := fun j =>
    (((List.range S.length).filter
        (fun s => domB dim (points.getD j []) (S.getD s []))).map
      (fun s => alpha (dominated s - 1))).sum
  (List.range nrP).map
    (fun j => F j * (List.zipWith (fun u l => u - l) BoxU BoxL).prod / (S.length : ℚ))

/-- `hypeIndicatorSampled` with its fallible behavior explicit: the alpha
loop fails when `k` exceeds the front size (and the shape unpacking on an
empty front), and the sampling line 71 computes `ref - BoxL` directly on
the `ref` argument, so a missing reference point raises a type error
before any sample is used. -/
def hypeIndicatorSampledOpt (points : Front) (k : ℕ) (ref : Option Point)
    (S : Front) : Option (List ℚ) :=
  if points.length = 0 ∨ points.length < k then none
  else
    match ref with
    | none => none
    | some r => some (hypeIndicatorSampledWith points k r S)

/-- `hypeIndicatorNaive` (hype.py lines 19-35).  The external hypervolume
primitive `hv.hypervolume` is passed as the parameter `hvPrim` (the spec
treats it as an opaque collaborator).  A missing reference point defaults
to the coordinate-wise maximum (lines 31-32). -/
def hypeIndicatorNaive (hvPrim : Front → Point → ℚ) (points : Front)
    (ref : Option Point) : List ℚ :=
  let r := match ref with | none => coordMax points | some r0 => r0
  let F := fun i => hvPrim (points.eraseIdx i) r
  (List.range points.length).map (fun i => hvPrim points r - F i)

/-- The objective matrix `wobj` of indicator.py: the weighted fitness
values multiplied by -1 (deap maximizes the negated objectives). -/
def negFront (front : Front) : Front := front.map (fun p => p.map (fun x => -x))

/-- The leave-one-out hypervolumes computed by `hypervolume`
(indicator.py lines 40-46): the external primitive applied to the
objective matrix with row i removed. -/
def looVolumes (hvPrim : Front → Point → ℚ) (front : Front) (r : Point) : List ℚ :=
  (List.range front.length).map (fun i => hvPrim ((negFront front).eraseIdx i) r)

/-- The scan of `numpy.argmax` over the first n positions: keep the
current best index, replacing it only on a strictly larger value. -/
def argmaxAux (l : List ℚ) (n : ℕ) : ℕ :=
  (List.range n).foldl
    (fun best i => if l.getD best 0 < l.getD i 0 then i else best) 0

/-- `numpy.argmax`: index of the first occurrence of the maximum. -/
def argmaxList (l : List ℚ) : ℕ := argmaxAux l l.length

/-- `hypervolume` (indicator.py lines 28-49): negate the weighted fitness
values, default the reference point to the coordinate-wise maximum plus
one, and return the argmax of the leave-one-out hypervolumes. -/
def hypervolume (hvPrim : Front → Point → ℚ) (front : Front)
    (ref : Option Point) : ℕ :=
  let r := match ref with
    | none => (coordMax (negFront front)).map (fun x => x + 1)
    | some r0 => r0
  argmaxList (looVolumes hvPrim front r)

/-- `hypervolume` with the empty-front failure explicit (`numpy.argmax` of
an empty sequence raises). -/
def hypervolumeOpt (hvPrim : Front → Point → ℚ) (front : Front)
    (ref : Option Point) : Option ℕ :=
  if front.length = 0 then none else some (hypervolume hvPrim front ref)

/-- Order on indices used to model `numpy.argsort`: by value, ties by the
original index. -/
def idxLe (l : List ℚ) (a b : ℕ) : Prop :=
  l.getD a 0 < l.getD b 0 ∨ (l.getD a 0 = l.getD b 0 ∧ a ≤ b)

instance (l : List ℚ) : DecidableRel (idxLe l) :=
  fun _ _ => inferInstanceAs (Decidable (_ ∨ _))

instance (l : List ℚ) : IsTotal ℕ (idxLe l) := by
  constructor
  intro a b
  rcases lt_trichotomy (l.getD a 0) (l.getD b 0) with h | h | h
  · exact Or.inl (Or.inl h)
  · rcases Nat.le_total a b with hab | hab
    · exact Or.inl (Or.inr ⟨h, hab⟩)
    · exact Or.inr (Or.inr ⟨h.symm, hab⟩)
  · exact Or.inr (Or.inl h)

instance (l : List ℚ) : IsTrans ℕ (idxLe l) := by
  constructor
  intro a b c hab hbc
  rcases hab with h1 | ⟨e1, n1⟩
  · rcases hbc with h2 | ⟨e2, _⟩
    · exact Or.inl (h1.trans h2)
    · exact Or.inl (e2 ▸ h1)
  · rcases hbc with h2 | ⟨e2, n2⟩
    · exact Or.inl (e1 ▸ h2)
    · exact Or.inr ⟨e1.trans e2, n1.trans n2⟩

/-- Model of `numpy.argsort`.  The source guarantees only an ascending
permutation of the positions: the default sort kind is documented as not
stable, so the order among tied values is unspecified.  The embedding
fixes the stable ascending order (ties by original index) as one definite
representative; no tie-dependent property is derived from this choice. -/
def argsortList (l : List ℚ) : List ℕ :=
  List.insertionSort (idxLe l) (List.range l.length)

/-- The indicator vector computed inside `hypervolumeEst` (indicator.py
lines 112-116): Monte-Carlo estimate at or above the dimensionality
threshold, exact algorithm below it. -/
def hypeEstVec (S : Front) (front : Front) (r : Point) (k dimThresh : ℕ) :
    List ℚ :=
  let wobj := negFront front
  let M := (wobj.headD []).length
  if dimThresh ≤ M then hypeIndicatorSampledWith wobj k r S
  else hypeIndicatorExact wobj k r

/-- `hypervolumeEst` (indicator.py lines 94-117): compute the indicator
vector, argsort it ascending and keep the first `k` indices.  Failures of
the inner indicator call (empty front, `k` above the front size, missing
reference point) propagate. -/
def hypervolumeEstOpt (S : Front) (front : Front) (ref : Option Point)
    (k dimThresh : ℕ) : Option (List ℕ) :=
  if front.length = 0 ∨ front.length < k then none
  else
    match ref with
    | none => none
    | some r => some ((argsortList (hypeEstVec S front r k dimThresh)).take k)

/-- `hypervolumeEstX` (indicator.py lines 119-137): dispatch on the
dimensionality of the first individual only; at or above the threshold
return the `hypervolumeEst` index list, below it fall back to the
single-index `hypervolume` selector.  An empty front fails when reading
`front[0]`. -/
def hypervolumeEstX (hvPrim : Front → Point → ℚ) (S : Front) (front : Front)
    (ref : Option Point) (k dimThresh : ℕ) : Option (ℕ ⊕ List ℕ) :=
  if front.length = 0 then none
  else if dimThresh ≤ (front.headD []).length then
    (hypervolumeEstOpt S front ref k dimThresh).map Sum.inr
  else
    (hypervolumeOpt hvPrim front ref).map Sum.inl

/-- `hypeSub` as claim C1 words it: per sorted position, the base-case
and recursive-case contributions are summed, with the extrusion as the
gap to the next point or to the reference coordinate for the last one. -/
def hypeSubClaim (k : ℕ) (alpha : ℕ → ℚ) (ref : Point) :
    ℕ → List IdxPoint → ℕ → ℚ
  | 0, A => fun j =>
    let L := sortByDim 0 A
    ∑ i ∈ Finset.range L.length,
      if i + 1 ≤ k ∧ j ∈ (L.take (i + 1)).map Prod.snd then
        extrusion (coord ref 0) 0 L i * alpha i
      else 0
  | d + 1, A => fun j =>
    let L := sortByDim (d + 1) A
    ∑ i ∈ Finset.range L.length,
      if 0 < extrusion (coord ref (d + 1)) (d + 1) L i then
        extrusion (coord ref (d + 1)) (d + 1) L i *
          hypeSubClaim k alpha ref d (L.take (i + 1)) j
      else 0

/-- Claim C4 wording of domination: the front point is at most the sample
in every coordinate. -/
def ptLeB (dim : ℕ) (p s : Point) : Bool :=
  decide (∀ d < dim, coord p d ≤ coord s d)

/-! ### Helper lemmas -/

/-- A left fold over `range n` that adds a per-iteration contribution to a
rational-valued accumulator function equals the pointwise finite sum of
the contributions. -/
theorem foldl_addf_eq_sum (f : ℕ → ℕ → ℚ) (n : ℕ) (h0 : ℕ → ℚ) :
    (List.range n).foldl (fun h i => fun j => h j + f i j) h0
      = fun j => h0 j + ∑ i ∈ Finset.range n, f i j := by
  induction n generalizing h0 with
  | zero => funext j; simp
  | succ n ih =>
    rw [List.range_succ, List.foldl_append, ih]
    funext j
    simp [Finset.sum_range_succ]
    ring

/-- The base-case loop of `hypeSub` as a finite sum. -/
theorem hypeLoopBase_eq_sum (k : ℕ) (alpha : ℕ → ℚ) (refd : ℚ) (L : List IdxPoint) :
    hypeLoopBase k alpha refd L = fun j =>
      ∑ i ∈ Finset.range L.length,
        if i + 1 ≤ k ∧ j ∈ (L.take (i + 1)).map Prod.snd then
          extrusion refd 0 L i * alpha i
        else 0 := by
  have h := foldl_addf_eq_sum
    (fun i j =>
      if i + 1 ≤ k ∧ j ∈ (L.take (i + 1)).map Prod.snd then
        extrusion refd 0 L i * alpha i
      else 0)
    L.length (fun _ => 0)
  funext j
  have h2 := congrFun h j
  simpa [hypeLoopBase] using h2

/-- The recursive-case loop of `hypeSub` as a finite sum. -/
theorem hypeLoopRec_eq_sum (d : ℕ) (refd : ℚ) (rec : List IdxPoint → ℕ → ℚ)
    (L : List IdxPoint) :
    hypeLoopRec d refd rec L = fun j =>
      ∑ i ∈ Finset.range L.length,
        if 0 < extrusion refd d L i then
          extrusion refd d L i * rec (L.take (i + 1)) j
        else 0 := by
  have h := foldl_addf_eq_sum
    (fun i j =>
      if 0 < extrusion refd d L i then
        extrusion refd d L i * rec (L.take (i + 1)) j
      else 0)
    L.length (fun _ => 0)
  funext j
  have h2 := congrFun h j
  simpa [hypeLoopRec] using h2

/-- The loop transcription of `hypeSub` agrees with the per-position sum
formulation of claim C1. -/
theorem hypeSub_eq_claim (k : ℕ) (alpha : ℕ → ℚ) (ref : Point) :
    ∀ (d : ℕ) (A : List IdxPoint) (j : ℕ),
      hypeSub k alpha ref d A j = hypeSubClaim k alpha ref d A j := by
  intro d
  induction d with
  | zero =>
    intro A j
    rw [hypeSub, hypeLoopBase_eq_sum]
    simp [hypeSubClaim]
  | succ d ih =>
    intro A j
    rw [hypeSub, hypeLoopRec_eq_sum]
    simp only [hypeSubClaim]
    apply Finset.sum_congr rfl
    intro i _
    simp [ih]

/-- The two textually identical alpha loops compute the same values. -/
theorem alphaRaw_sampled_eq_exact (N k : ℕ) :
    ∀ i, alphaRawSampled N k i = alphaRawExact N k i := by
  intro i
  induction i with
  | zero => rfl
  | succ i ih => simp [alphaRawSampled, alphaRawExact, ih]

/-- With `k = 0` the base-case guard `i + 1 <= k` never fires, so `hypeSub`
returns the all-zero accumulator. -/
theorem hypeSub_kzero (alpha : ℕ → ℚ) (ref : Point) :
    ∀ (d : ℕ) (A : List IdxPoint) (j : ℕ), hypeSub 0 alpha ref d A j = 0 := by
  intro d
  induction d with
  | zero => intro A j; rw [hypeSub, hypeLoopBase_eq_sum]; simp
  | succ d ih => intro A j; rw [hypeSub, hypeLoopRec_eq_sum]; simp [ih]

/-- With `k = 0` the exact indicator is the all-zero vector. -/
theorem hypeIndicatorExact_kzero (points : Front) (ref : Point) :
    hypeIndicatorExact points 0 ref = List.replicate points.length 0 := by
  have h : ∀ j ∈ List.range points.length,
      hypeSub 0 (alphaExact points.length 0) ref ((points.headD []).length - 1)
        (points.zip (List.range points.length)) j = (fun _ => (0 : ℚ)) j :=
    fun j _ => hypeSub_kzero _ _ _ _ j
  calc hypeIndicatorExact points 0 ref
      = (List.range points.length).map (fun _ => (0 : ℚ)) := List.map_congr_left h
    _ = List.replicate points.length 0 := by simp [List.map_const']

/-- A left fold over `range n` that conditionally increments a counter
function equals the pointwise `countP`. -/
theorem foldl_count_eq_countP (p : ℕ → ℕ → Bool) (n : ℕ) :
    (List.range n).foldl
        (fun cnt j => fun s => if p j s then cnt s + 1 else cnt s) (fun _ => 0)
      = fun s => (List.range n).countP (fun j => p j s) := by
  induction n with
  | zero => funext s; simp
  | succ n ih =>
    rw [List.range_succ, List.foldl_append, ih]
    funext s
    simp only [List.foldl_cons, List.foldl_nil, List.countP_append,
      List.countP_cons, List.countP_nil]
    by_cases h : p n s <;> simp [h]

/-- The first pass of the sampled indicator computes, for each sample, the
number of front points dominating it. -/
theorem dominatedCounts_eq (points : Front) (dim : ℕ) (S : Front) :
    dominatedCounts points dim S = fun s =>
      (List.range points.length).countP
        (fun j => domB dim (points.getD j []) (S.getD s [])) := by
  unfold dominatedCounts
  exact foldl_count_eq_countP _ _

/-- The coordinate-count formulation of domination in the source equals
the every-coordinate formulation of the claim. -/
theorem domB_eq_ptLeB : domB = ptLeB := by
  funext dim p s
  unfold domB ptLeB
  rw [decide_eq_decide]
  constructor
  · intro h d hd
    have h2 : ∀ a ∈ List.range dim, (fun e => decide (0 ≤ coord s e - coord p e)) a := by
      rw [← List.countP_eq_length]
      simpa using h
    have h3 := h2 d (List.mem_range.mpr hd)
    simp only [decide_eq_true_eq] at h3
    exact sub_nonneg.mp h3
  · intro h
    have h2 : ∀ a ∈ List.range dim, (fun e => decide (0 ≤ coord s e - coord p e)) a := by
      intro a ha
      simp only [decide_eq_true_eq]
      exact sub_nonneg.mpr (h a (List.mem_range.mp ha))
    rw [List.countP_eq_length.mpr h2]
    simp

/-- One step of the `argmaxAux` scan. -/
theorem argmaxAux_succ (l : List ℚ) (n : ℕ) :
    argmaxAux l (n + 1) =
      if l.getD (argmaxAux l n) 0 < l.getD n 0 then n else argmaxAux l n := by
  unfold argmaxAux
  rw [List.range_succ, List.foldl_append]
  simp

/-- The `argmaxAux` scan returns a valid index carrying a maximal value,
and the first position attaining the maximum. -/
theorem argmaxAux_spec (l : List ℚ) :
    ∀ n, 1 ≤ n →
      argmaxAux l n < n ∧
      (∀ i < n, l.getD i 0 ≤ l.getD (argmaxAux l n) 0) ∧
      (∀ i < argmaxAux l n, l.getD i 0 < l.getD (argmaxAux l n) 0) := by
  intro n
  induction n with
  | zero => omega
  | succ n ih =>
    intro _
    rcases Nat.eq_zero_or_pos n with hn | hn
    · subst hn
      have h1 : argmaxAux l 1 = 0 := by simp [argmaxAux, List.range_succ]
      refine ⟨by simp [h1], ?_, ?_⟩
      · intro i hi
        have h2 : i = 0 := by omega
        subst h2
        simp [h1]
      · intro i hi
        simp [h1] at hi
    · obtain ⟨hlt, hmax, hfirst⟩ := ih hn
      rw [argmaxAux_succ]
      by_cases hc : l.getD (argmaxAux l n) 0 < l.getD n 0
      · rw [if_pos hc]
        refine ⟨by omega, ?_, ?_⟩
        · intro i hi
          rcases Nat.lt_succ_iff_lt_or_eq.mp hi with h | h
          · exact le_of_lt (lt_of_le_of_lt (hmax i h) hc)
          · subst h; exact le_refl _
        · intro i hi
          exact lt_of_le_of_lt (hmax i hi) hc
      · rw [if_neg hc]
        refine ⟨by omega, ?_, hfirst⟩
        intro i hi
        rcases Nat.lt_succ_iff_lt_or_eq.mp hi with h | h
        · exact hmax i h
        · subst h; exact le_of_not_lt hc

/-- The exact indicator vector has one entry per front point. -/
theorem length_hypeIndicatorExact (points : Front) (k : ℕ) (ref : Point) :
    (hypeIndicatorExact points k ref).length = points.length := by
  simp [hypeIndicatorExact]

/-- The sampled indicator vector has one entry per front point. -/
theorem length_hypeIndicatorSampledWith (points : Front) (k : ℕ) (ref : Point)
    (S : Front) :
    (hypeIndicatorSampledWith points k ref S).length = points.length := by
  simp [hypeIndicatorSampledWith]

/-- The negated objective matrix preserves the number of rows. -/
theorem length_negFront (front : Front) : (negFront front).length = front.length := by
  simp [negFront]

/-- The indicator vector of the selector has one entry per individual. -/
theorem length_hypeEstVec (S : Front) (front : Front) (r : Point) (k dimThresh : ℕ) :
    (hypeEstVec S front r k dimThresh).length = front.length := by
  simp only [hypeEstVec]
  split <;>
    simp [length_hypeIndicatorExact, length_hypeIndicatorSampledWith, length_negFront]

/-- The modelled argsort is a permutation of the position list. -/
theorem argsortList_perm (l : List ℚ) : (argsortList l).Perm (List.range l.length) :=
  List.perm_insertionSort _ _

/-- The modelled argsort preserves length. -/
theorem length_argsortList (l : List ℚ) : (argsortList l).length = l.length := by
  rw [(argsortList_perm l).length_eq, List.length_range]

/-- The row sort of `hypeSub` is sorted by the active coordinate. -/
theorem sortByDim_sorted (d : ℕ) (A : List IdxPoint) :
    (sortByDim d A).Pairwise (keyLe d) :=
  List.sorted_insertionSort _ _

/-- The row sort of `hypeSub` is a permutation of its input. -/
theorem sortByDim_perm (d : ℕ) (A : List IdxPoint) : (sortByDim d A).Perm A :=
  List.perm_insertionSort _ _

/-- Membership is preserved by the row sort. -/
theorem mem_sortByDim {d : ℕ} {A : List IdxPoint} {p : IdxPoint} :
    p ∈ sortByDim d A ↔ p ∈ A :=
  List.mem_insertionSort _

/-- A row-by-row shape hypothesis upgrades the bounded in-box hypothesis
to all coordinate positions, since out-of-range accesses read 0 on both
sides. -/
theorem coord_le_of_box (p : Point) (ref : Point) (hlen : p.length = ref.length)
    (hbox : ∀ d < ref.length, coord p d ≤ coord ref d) :
    ∀ d, coord p d ≤ coord ref d := by
  intro d
  by_cases hd : d < ref.length
  · exact hbox d hd
  · unfold coord
    rw [List.getD_eq_default _ _ (show p.length ≤ d by omega),
      List.getD_eq_default _ _ (show ref.length ≤ d by omega)]

/-- The extrusion at a valid position of the sorted in-box row list is
non-negative. -/
theorem extrusion_nonneg (ref : Point) (d : ℕ) (A : List IdxPoint)
    (hbox : ∀ p ∈ A, ∀ e, coord p.1 e ≤ coord ref e)
    (i : ℕ) (hi : i < (sortByDim d A).length) :
    0 ≤ extrusion (coord ref d) d (sortByDim d A) i := by
  unfold extrusion
  by_cases hlast : i < (sortByDim d A).length - 1
  · rw [if_pos hlast]
    have h1 : i + 1 < (sortByDim d A).length := by omega
    have h2 := List.pairwise_iff_getElem.mp (sortByDim_sorted d A) i (i + 1) hi h1
      (by omega)
    unfold pt
    rw [List.getD_eq_getElem _ _ hi, List.getD_eq_getElem _ _ h1]
    exact sub_nonneg.mpr h2
  · rw [if_neg hlast]
    unfold pt
    rw [List.getD_eq_getElem _ _ hi]
    have hmem : (sortByDim d A)[i] ∈ A := mem_sortByDim.mp (List.getElem_mem hi)
    exact sub_nonneg.mpr (hbox _ hmem d)

/-- `hypeSub` is entrywise non-negative on in-box rows when the alpha
weights are non-negative. -/
theorem hypeSub_nonneg (k : ℕ) (alpha : ℕ → ℚ) (ref : Point)
    (halpha : ∀ i, 0 ≤ alpha i) :
    ∀ (d : ℕ) (A : List IdxPoint),
      (∀ p ∈ A, ∀ e, coord p.1 e ≤ coord ref e) →
      ∀ j, 0 ≤ hypeSub k alpha ref d A j := by
  intro d
  induction d with
  | zero =>
    intro A hbox j
    rw [hypeSub]
    rw [hypeLoopBase_eq_sum]
    apply Finset.sum_nonneg
    intro i hi
    rw [Finset.mem_range] at hi
    split
    · exact mul_nonneg (extrusion_nonneg ref 0 A hbox i hi) (halpha i)
    · exact le_refl 0
  | succ d ih =>
    intro A hbox j
    rw [hypeSub]
    rw [hypeLoopRec_eq_sum]
    apply Finset.sum_nonneg
    intro i hi
    rw [Finset.mem_range] at hi
    split
    · next hc =>
        refine mul_nonneg (le_of_lt hc) (ih _ ?_ j)
        intro p hp e
        exact hbox p (mem_sortByDim.mp (List.take_subset _ _ hp)) e
    · exact le_refl 0

/-- The raw alpha values are non-negative when k is at most N. -/
theorem alphaRawExact_nonneg (N k : ℕ) (hkN : k ≤ N) :
    ∀ i, 0 ≤ alphaRawExact N k i := by
  intro i
  induction i with
  | zero => rw [alphaRawExact]; exact zero_le_one
  | succ i ih =>
    rw [alphaRawExact]
    by_cases hc : i + 1 < k
    · rw [if_pos hc]
      have h1 : ((i : ℚ) + 1) ≤ (k : ℚ) := by exact_mod_cast le_of_lt hc
      have h2 : ((i : ℚ) + 1) < (N : ℚ) := by exact_mod_cast lt_of_lt_of_le hc hkN
      apply div_nonneg
      · apply mul_nonneg ih
        linarith
      · linarith
    · simp [hc]

/-- The final exact alpha weights are non-negative when k is at most N. -/
theorem alphaExact_nonneg (N k : ℕ) (hkN : k ≤ N) (i : ℕ) :
    0 ≤ alphaExact N k i := by
  unfold alphaExact
  apply div_nonneg (alphaRawExact_nonneg N k hkN i)
  have h1 : (0 : ℚ) ≤ (i : ℚ) := Nat.cast_nonneg i
  linarith

/-- The final sampled alpha weights are non-negative when k is at most N. -/
theorem alphaSampled_nonneg (N k : ℕ) (hkN : k ≤ N) (i : ℕ) :
    0 ≤ alphaSampled N k i := by
  unfold alphaSampled
  rw [alphaRaw_sampled_eq_exact]
  apply div_nonneg (alphaRawExact_nonneg N k hkN i)
  have h1 : (0 : ℚ) ≤ (i : ℚ) := Nat.cast_nonneg i
  linarith

/-- Folding coordinate-wise minima keeps the length and never increases
any entry of the accumulator. -/
theorem coordMin_foldl_le (rest : Front) :
    ∀ acc : Point, (∀ q ∈ rest, q.length = acc.length) →
      (rest.foldl (fun a q => List.zipWith min a q) acc).length = acc.length ∧
      ∀ d, d < acc.length →
        (rest.foldl (fun a q => List.zipWith min a q) acc).getD d 0 ≤ acc.getD d 0 := by
  induction rest with
  | nil => intro acc _; exact ⟨rfl, fun d _ => le_refl _⟩
  | cons q rest ih =>
    intro acc h
    have hq : q.length = acc.length := h q (List.mem_cons_self q rest)
    have hacc : (List.zipWith min acc q).length = acc.length := by
      rw [List.length_zipWith]; omega
    have h2 : ∀ p ∈ rest, p.length = (List.zipWith min acc q).length := by
      intro p hp
      rw [hacc]
      exact h p (List.mem_cons_of_mem q hp)
    obtain ⟨hl, hle⟩ := ih (List.zipWith min acc q) h2
    constructor
    · rw [List.foldl_cons, hl, hacc]
    · intro d hd
      rw [List.foldl_cons]
      have hd2 : d < (List.zipWith min acc q).length := by omega
      have hstep : (List.zipWith min acc q).getD d 0 ≤ acc.getD d 0 := by
        rw [List.getD_eq_getElem _ _ hd2, List.getD_eq_getElem _ _ hd,
          List.getElem_zipWith]
        exact min_le_left _ _
      exact le_trans (hle d (by omega)) hstep

/-- The coordinate-wise minimum of a uniformly shaped nonempty front has
the common length and lies below the first row. -/
theorem coordMin_spec (p : Point) (rest : Front)
    (h : ∀ q ∈ rest, q.length = p.length) :
    (coordMin (p :: rest)).length = p.length ∧
    ∀ d, d < p.length → (coordMin (p :: rest)).getD d 0 ≤ p.getD d 0 := by
  unfold coordMin
  exact coordMin_foldl_le rest p h

/-- The exact indicator is entrywise non-negative for in-box fronts. -/
theorem hypeIndicatorExact_nonneg (points : Front) (k : ℕ) (ref : Point)
    (hkN : k ≤ points.length)
    (hshape : ∀ p ∈ points, p.length = ref.length)
    (hbox : ∀ p ∈ points, ∀ d < ref.length, coord p d ≤ coord ref d) :
    ∀ x ∈ hypeIndicatorExact points k ref, 0 ≤ x := by
  intro x hx
  have hx2 : x ∈ (List.range points.length).map
      (hypeSub k (alphaExact points.length k) ref ((points.headD []).length - 1)
        (points.zip (List.range points.length))) := hx
  obtain ⟨j, _, rfl⟩ := List.mem_map.mp hx2
  apply hypeSub_nonneg k _ ref (alphaExact_nonneg points.length k hkN)
  intro p hp e
  have hmem : p.1 ∈ points := (List.of_mem_zip hp).1
  exact coord_le_of_box p.1 ref (hshape p.1 hmem) (fun d hd => hbox p.1 hmem d hd) e

/-- The sampled indicator is entrywise non-negative for in-box fronts,
whatever the sample matrix. -/
theorem hypeIndicatorSampledWith_nonneg (points : Front) (k : ℕ) (ref : Point)
    (S : Front) (hkN : k ≤ points.length) (hne : points ≠ [])
    (hshape : ∀ p ∈ points, p.length = ref.length)
    (hbox : ∀ p ∈ points, ∀ d < ref.length, coord p d ≤ coord ref d) :
    ∀ x ∈ hypeIndicatorSampledWith points k ref S, 0 ≤ x := by
  intro x hx
  have hx2 : x ∈ (List.range points.length).map
      (fun j =>
        (((List.range S.length).filter
            (fun s => domB (points.headD []).length (points.getD j []) (S.getD s []))).map
          (fun s =>
            alphaSampled points.length k
              (dominatedCounts points ((points.headD []).length) S s - 1))).sum *
        (List.zipWith (fun u l => u - l) ref (coordMin points)).prod / (S.length : ℚ)) := hx
  obtain ⟨j, _, rfl⟩ := List.mem_map.mp hx2
  apply div_nonneg _ (show (0 : ℚ) ≤ (S.length : ℚ) from Nat.cast_nonneg _)
  apply mul_nonneg
  · apply List.sum_nonneg
    intro y hy
    obtain ⟨s, _, rfl⟩ := List.mem_map.mp hy
    exact alphaSampled_nonneg points.length k hkN _
  · apply List.prod_nonneg
    intro y hy
    obtain ⟨i, hi, rfl⟩ := List.mem_iff_getElem.mp hy
    obtain ⟨p0, rest, rfl⟩ : ∃ p0 rest, points = p0 :: rest := by
      cases points with
      | nil => exact absurd rfl hne
      | cons p0 rest => exact ⟨p0, rest, rfl⟩
    have hshape0 : ∀ q ∈ rest, q.length = p0.length := by
      intro q hq
      rw [hshape q (List.mem_cons_of_mem p0 hq),
        hshape p0 (List.mem_cons_self p0 rest)]
    obtain ⟨hminlen, hminle⟩ := coordMin_spec p0 rest hshape0
    have hp0len : p0.length = ref.length := hshape p0 (List.mem_cons_self p0 rest)
    rw [List.length_zipWith] at hi
    have hiref : i < ref.length := lt_of_lt_of_le hi (min_le_left _ _)
    have himin : i < (coordMin (p0 :: rest)).length :=
      lt_of_lt_of_le hi (min_le_right _ _)
    rw [List.getElem_zipWith]
    have hchain : (coordMin (p0 :: rest)).getD i 0 ≤ ref.getD i 0 := by
      refine le_trans (hminle i (by omega)) ?_
      exact hbox p0 (List.mem_cons_self p0 rest) i hiref
    rw [List.getD_eq_getElem _ _ himin, List.getD_eq_getElem _ _ hiref] at hchain
    exact sub_nonneg.mpr hchain

/-- Two sorted permutations of the same rows carry the same coordinate
sequence on the sort axis (the coordinate order on the rationals is
antisymmetric, so the sorted key list is unique). -/
theorem keys_eq_of_sorted_perm (d : ℕ) (L1 L2 : List IdxPoint)
    (hperm : L1.Perm L2) (hs1 : L1.Pairwise (keyLe d)) (hs2 : L2.Pairwise (keyLe d)) :
    L1.map (fun p => coord p.1 d) = L2.map (fun p => coord p.1 d) := by
  have hs1m : (L1.map (fun p => coord p.1 d)).Pairwise (fun a b : ℚ => a ≤ b) :=
    hs1.map _ (fun _ _ hr => hr)
  have hs2m : (L2.map (fun p => coord p.1 d)).Pairwise (fun a b : ℚ => a ≤ b) :=
    hs2.map _ (fun _ _ hr => hr)
  exact List.eq_of_perm_of_sorted (hperm.map _) hs1m hs2m

/-- Positionwise coordinates agree between two sorted permutations. -/
theorem pt_eq_of_sorted_perm (d : ℕ) (L1 L2 : List IdxPoint)
    (hperm : L1.Perm L2) (hs1 : L1.Pairwise (keyLe d)) (hs2 : L2.Pairwise (keyLe d)) :
    ∀ i, pt L1 i d = pt L2 i d := by
  intro i
  by_cases hi : i < L1.length
  · have hi2 : i < L2.length := by rw [← hperm.length_eq]; exact hi
    have hmap := keys_eq_of_sorted_perm d L1 L2 hperm hs1 hs2
    have h1 : (L1.map (fun p => coord p.1 d)).getD i 0
        = (L2.map (fun p => coord p.1 d)).getD i 0 := by rw [hmap]
    rw [List.getD_eq_getElem _ _ (by simpa using hi),
      List.getD_eq_getElem _ _ (by simpa using hi2), List.getElem_map,
      List.getElem_map] at h1
    unfold pt
    rw [List.getD_eq_getElem _ _ hi, List.getD_eq_getElem _ _ hi2]
    exact h1
  · have hi2 : ¬ i < L2.length := by rw [← hperm.length_eq]; exact hi
    unfold pt
    rw [List.getD_eq_default _ _ (by omega), List.getD_eq_default _ _ (by omega)]

/-- Positionwise extrusions agree between two sorted permutations. -/
theorem extrusion_eq_of_sorted_perm (refd : ℚ) (d : ℕ) (L1 L2 : List IdxPoint)
    (hperm : L1.Perm L2) (hs1 : L1.Pairwise (keyLe d)) (hs2 : L2.Pairwise (keyLe d)) :
    ∀ i, extrusion refd d L1 i = extrusion refd d L2 i := by
  intro i
  unfold extrusion
  rw [pt_eq_of_sorted_perm d L1 L2 hperm hs1 hs2 i,
    pt_eq_of_sorted_perm d L1 L2 hperm hs1 hs2 (i + 1), hperm.length_eq]

/-- In a row list sorted on axis d, every row of the prefix of length i+1
has its d coordinate at most the coordinate at position i. -/
theorem take_coord_le (d : ℕ) (L : List IdxPoint) (hs : L.Pairwise (keyLe d))
    (i : ℕ) (hi : i < L.length) :
    ∀ x ∈ L.take (i + 1), coord x.1 d ≤ pt L i d := by
  intro x hx
  obtain ⟨a, ha, rfl⟩ := List.mem_iff_getElem.mp hx
  rw [List.length_take] at ha
  have ha2 : a < L.length := by omega
  rw [List.getElem_take]
  unfold pt
  rw [List.getD_eq_getElem _ _ hi]
  rcases Nat.lt_or_ge a i with h | h
  · exact List.pairwise_iff_getElem.mp hs a i ha2 hi h
  · have ha3 : a = i := by omega
    subst ha3
    exact le_refl _

/-- In a row list sorted on axis d with a strict gap after position i,
every row of the remainder has its d coordinate above the coordinate at
position i. -/
theorem drop_coord_gt (d : ℕ) (L : List IdxPoint) (hs : L.Pairwise (keyLe d))
    (i : ℕ) (hi : i + 1 < L.length) (hlt : pt L i d < pt L (i + 1) d) :
    ∀ x ∈ L.drop (i + 1), ¬ (coord x.1 d ≤ pt L i d) := by
  intro x hx
  obtain ⟨a, ha, rfl⟩ := List.mem_iff_getElem.mp hx
  rw [List.length_drop] at ha
  rw [List.getElem_drop]
  have hbound : i + 1 + a < L.length := by omega
  have hge : pt L (i + 1) d ≤ pt L (i + 1 + a) d := by
    rcases Nat.eq_zero_or_pos a with h0 | h0
    · subst h0
      exact le_refl _
    · have h2 := List.pairwise_iff_getElem.mp hs (i + 1) (i + 1 + a)
        (by omega) hbound (by omega)
      unfold pt
      rw [List.getD_eq_getElem _ _ (show i + 1 < L.length by omega),
        List.getD_eq_getElem _ _ hbound]
      exact h2
  have hlt2 : pt L i d < pt L (i + 1 + a) d := lt_of_lt_of_le hlt hge
  unfold pt at hlt2
  rw [List.getD_eq_getElem _ _ hbound] at hlt2
  exact not_le.mpr hlt2

/-- A strict coordinate gap after position i makes the prefix of length
i+1 of a sorted row list a coordinate filter, hence determined by the
rows as a multiset. -/
theorem sorted_take_eq_filter (d : ℕ) (L : List IdxPoint) (hs : L.Pairwise (keyLe d))
    (i : ℕ) (hi : i + 1 < L.length) (hlt : pt L i d < pt L (i + 1) d) :
    L.take (i + 1) = L.filter (fun p => decide (coord p.1 d ≤ pt L i d)) := by
  have h1 : ∀ a ∈ L.take (i + 1),
      (fun p => decide (coord p.1 d ≤ pt L i d)) a = true := by
    intro a ha
    simpa using take_coord_le d L hs i (by omega) a ha
  have h2 : ∀ a ∈ L.drop (i + 1),
      ¬ (fun p => decide (coord p.1 d ≤ pt L i d)) a = true := by
    intro a ha
    simpa using drop_coord_gt d L hs i hi hlt a ha
  calc L.take (i + 1)
      = (L.take (i + 1)).filter (fun p => decide (coord p.1 d ≤ pt L i d)) :=
        (List.filter_eq_self.mpr h1).symm
    _ = (L.take (i + 1)).filter (fun p => decide (coord p.1 d ≤ pt L i d)) ++
        (L.drop (i + 1)).filter (fun p => decide (coord p.1 d ≤ pt L i d)) := by
        rw [List.filter_eq_nil_iff.mpr h2, List.append_nil]
    _ = (L.take (i + 1) ++ L.drop (i + 1)).filter
        (fun p => decide (coord p.1 d ≤ pt L i d)) := by
        rw [List.filter_append]
    _ = L.filter (fun p => decide (coord p.1 d ≤ pt L i d)) := by
        rw [List.take_append_drop]

/-- The length-(i+1) prefixes of two sorted permutations are themselves
permutations of each other, provided the cut does not split a tie block
(strict gap after the cut, or a prefix covering the whole list). -/
theorem take_succ_perm (d : ℕ) (L1 L2 : List IdxPoint) (hperm : L1.Perm L2)
    (hs1 : L1.Pairwise (keyLe d)) (hs2 : L2.Pairwise (keyLe d)) (i : ℕ)
    (hcut : i + 1 < L1.length → pt L1 i d < pt L1 (i + 1) d) :
    (L1.take (i + 1)).Perm (L2.take (i + 1)) := by
  by_cases hl : i + 1 < L1.length
  · have hlt1 := hcut hl
    have hl2 : i + 1 < L2.length := by rw [← hperm.length_eq]; exact hl
    have hlt2 : pt L2 i d < pt L2 (i + 1) d := by
      rw [← pt_eq_of_sorted_perm d L1 L2 hperm hs1 hs2 i,
        ← pt_eq_of_sorted_perm d L1 L2 hperm hs1 hs2 (i + 1)]
      exact hlt1
    rw [sorted_take_eq_filter d L1 hs1 i hl hlt1,
      sorted_take_eq_filter d L2 hs2 i hl2 hlt2,
      ← pt_eq_of_sorted_perm d L1 L2 hperm hs1 hs2 i]
    exact hperm.filter _
  · rw [List.take_of_length_le (by omega),
      List.take_of_length_le (by rw [← hperm.length_eq]; omega)]
    exact hperm

/-- A nonzero extrusion before the last position forces a strict
coordinate gap in a sorted row list. -/
theorem cut_of_extrusion_ne (refd : ℚ) (d : ℕ) (L : List IdxPoint) (i : ℕ)
    (hs : L.Pairwise (keyLe d)) (hi : i < L.length)
    (hne : extrusion refd d L i ≠ 0) :
    i + 1 < L.length → pt L i d < pt L (i + 1) d := by
  intro hl
  have hle : pt L i d ≤ pt L (i + 1) d := by
    have h2 := List.pairwise_iff_getElem.mp hs i (i + 1) hi hl (by omega)
    unfold pt
    rw [List.getD_eq_getElem _ _ hi, List.getD_eq_getElem _ _ hl]
    exact h2
  rcases lt_or_eq_of_le hle with h | h
  · exact h
  · exfalso
    apply hne
    unfold extrusion
    rw [if_pos (by omega)]
    exact sub_eq_zero.mpr h.symm

/-- The base-case loop gives equal accumulators on any two sorted
permutations of the same rows: a cut inside a tie block has zero
extrusion, and any other prefix is determined by the rows as a multiset. -/
theorem hypeLoopBase_eq_of_sorted_perm (k : ℕ) (alpha : ℕ → ℚ) (refd : ℚ)
    (L1 L2 : List IdxPoint) (hperm : L1.Perm L2)
    (hs1 : L1.Pairwise (keyLe 0)) (hs2 : L2.Pairwise (keyLe 0)) :
    hypeLoopBase k alpha refd L1 = hypeLoopBase k alpha refd L2 := by
  rw [hypeLoopBase_eq_sum, hypeLoopBase_eq_sum]
  funext j
  rw [hperm.length_eq]
  apply Finset.sum_congr rfl
  intro i hi
  rw [Finset.mem_range] at hi
  have hi1 : i < L1.length := by rw [hperm.length_eq]; exact hi
  have hext := extrusion_eq_of_sorted_perm refd 0 L1 L2 hperm hs1 hs2 i
  rcases eq_or_ne (extrusion refd 0 L1 i) 0 with h0 | h0
  · rw [h0] at hext
    rw [h0, ← hext]
    simp
  · have htp := take_succ_perm 0 L1 L2 hperm hs1 hs2 i
      (cut_of_extrusion_ne refd 0 L1 i hs1 hi1 h0)
    have hmem : (j ∈ (L1.take (i + 1)).map Prod.snd) ↔
        (j ∈ (L2.take (i + 1)).map Prod.snd) :=
      (htp.map Prod.snd).mem_iff
    rw [hext]
    exact if_congr (and_congr Iff.rfl hmem) rfl rfl

/-- The recursive-case loop gives equal accumulators on any two sorted
permutations of the same rows, whenever the recursive call is itself
invariant under permutations of its rows. -/
theorem hypeLoopRec_eq_of_sorted_perm (d : ℕ) (refd : ℚ)
    (rec : List IdxPoint → ℕ → ℚ) (L1 L2 : List IdxPoint) (hperm : L1.Perm L2)
    (hs1 : L1.Pairwise (keyLe d)) (hs2 : L2.Pairwise (keyLe d))
    (hrec : ∀ M1 M2, M1.Perm M2 → rec M1 = rec M2) :
    hypeLoopRec d refd rec L1 = hypeLoopRec d refd rec L2 := by
  rw [hypeLoopRec_eq_sum, hypeLoopRec_eq_sum]
  funext j
  rw [hperm.length_eq]
  apply Finset.sum_congr rfl
  intro i hi
  rw [Finset.mem_range] at hi
  have hi1 : i < L1.length := by rw [hperm.length_eq]; exact hi
  have hext := extrusion_eq_of_sorted_perm refd d L1 L2 hperm hs1 hs2 i
  rcases eq_or_ne (extrusion refd d L1 i) 0 with h0 | h0
  · rw [h0] at hext
    rw [h0, ← hext]
    simp
  · have htp := take_succ_perm d L1 L2 hperm hs1 hs2 i
      (cut_of_extrusion_ne refd d L1 i hs1 hi1 h0)
    rw [hext, hrec _ _ htp]

/-- `hypeSub` depends on its rows and index map only through the multiset
of row-index pairs: it is invariant under permutations of its input. -/
theorem hypeSub_perm_invariant (k : ℕ) (alpha : ℕ → ℚ) (ref : Point) :
    ∀ (d : ℕ) (A B : List IdxPoint), A.Perm B →
      hypeSub k alpha ref d A = hypeSub k alpha ref d B := by
  intro d
  induction d with
  | zero =>
    intro A B hAB
    rw [hypeSub, hypeSub]
    exact hypeLoopBase_eq_of_sorted_perm k alpha (coord ref 0) _ _
      ((sortByDim_perm 0 A).trans (hAB.trans (sortByDim_perm 0 B).symm))
      (sortByDim_sorted 0 A) (sortByDim_sorted 0 B)
  | succ d ih =>
    intro A B hAB
    rw [hypeSub, hypeSub]
    exact hypeLoopRec_eq_of_sorted_perm (d + 1) (coord ref (d + 1)) _ _ _
      ((sortByDim_perm (d + 1) A).trans (hAB.trans (sortByDim_perm (d + 1) B).symm))
      (sortByDim_sorted (d + 1) A) (sortByDim_sorted (d + 1) B)
      (fun M1 M2 hp => ih M1 M2 hp)

/-- Relabelling the index map changes neither positions nor coordinates. -/
theorem pt_map_relabel (σ : ℕ → ℕ) (L : List IdxPoint) (i d : ℕ) :
    pt (L.map (fun p => (p.1, σ p.2))) i d = pt L i d := by
  unfold pt
  by_cases hi : i < L.length
  · have hi2 : i < (L.map (fun p => (p.1, σ p.2))).length := by simpa using hi
    rw [List.getD_eq_getElem _ _ hi2, List.getD_eq_getElem _ _ hi, List.getElem_map]
  · have hi2 : (L.map (fun p => (p.1, σ p.2))).length ≤ i := by
      simpa using not_lt.mp hi
    rw [List.getD_eq_default _ _ hi2, List.getD_eq_default _ _ (not_lt.mp hi)]

/-- Relabelling the index map preserves the sort keys, hence sortedness. -/
theorem sorted_map_relabel (d : ℕ) (σ : ℕ → ℕ) (L : List IdxPoint)
    (hs : L.Pairwise (keyLe d)) :
    (L.map (fun p => (p.1, σ p.2))).Pairwise (keyLe d) :=
  hs.map _ (fun _ _ hr => hr)

/-- Extrusions are unchanged by index relabelling. -/
theorem extrusion_map_relabel (refd : ℚ) (d : ℕ) (σ : ℕ → ℕ)
    (L : List IdxPoint) (i : ℕ) :
    extrusion refd d (L.map (fun p => (p.1, σ p.2))) i = extrusion refd d L i := by
  unfold extrusion
  rw [pt_map_relabel, pt_map_relabel, List.length_map]

/-- The base-case loop at an injectively relabelled index map, read at the
relabelled point, agrees with the original read at the original point. -/
theorem hypeLoopBase_relabel (k : ℕ) (alpha : ℕ → ℚ) (refd : ℚ) (σ : ℕ → ℕ)
    (hσ : Function.Injective σ) (L : List IdxPoint) (j : ℕ) :
    hypeLoopBase k alpha refd (L.map (fun p => (p.1, σ p.2))) (σ j)
      = hypeLoopBase k alpha refd L j := by
  have h1 := congrFun
    (hypeLoopBase_eq_sum k alpha refd (L.map (fun p => (p.1, σ p.2)))) (σ j)
  have h2 := congrFun (hypeLoopBase_eq_sum k alpha refd L) j
  rw [h1, h2, List.length_map]
  apply Finset.sum_congr rfl
  intro i _
  have hmem : (σ j ∈ ((L.map (fun p => (p.1, σ p.2))).take (i + 1)).map Prod.snd) ↔
      (j ∈ (L.take (i + 1)).map Prod.snd) := by
    rw [← List.map_take]
    rw [List.map_map]
    rw [show (Prod.snd ∘ fun p : IdxPoint => (p.1, σ p.2)) = σ ∘ Prod.snd from rfl]
    rw [← List.map_map]
    exact List.mem_map_of_injective hσ
  rw [extrusion_map_relabel]
  exact if_congr (and_congr Iff.rfl hmem) rfl rfl

/-- `hypeSub` at an injectively relabelled index map, read at the
relabelled original index, agrees with the original: each accumulated
score follows its attached original index. -/
theorem hypeSub_relabel (k : ℕ) (alpha : ℕ → ℚ) (ref : Point) (σ : ℕ → ℕ)
    (hσ : Function.Injective σ) :
    ∀ (d : ℕ) (A : List IdxPoint) (j : ℕ),
      hypeSub k alpha ref d (A.map (fun p => (p.1, σ p.2))) (σ j)
        = hypeSub k alpha ref d A j := by
  intro d
  induction d with
  | zero =>
    intro A j
    rw [hypeSub, hypeSub]
    have hperm : (sortByDim 0 (A.map (fun p => (p.1, σ p.2)))).Perm
        ((sortByDim 0 A).map (fun p => (p.1, σ p.2))) :=
      (sortByDim_perm 0 _).trans ((sortByDim_perm 0 A).symm.map _)
    rw [hypeLoopBase_eq_of_sorted_perm k alpha (coord ref 0) _ _ hperm
      (sortByDim_sorted 0 _) (sorted_map_relabel 0 σ _ (sortByDim_sorted 0 A))]
    exact hypeLoopBase_relabel k alpha (coord ref 0) σ hσ (sortByDim 0 A) j
  | succ d ih =>
    intro A j
    rw [hypeSub, hypeSub]
    have hperm : (sortByDim (d + 1) (A.map (fun p => (p.1, σ p.2)))).Perm
        ((sortByDim (d + 1) A).map (fun p => (p.1, σ p.2))) :=
      (sortByDim_perm (d + 1) _).trans ((sortByDim_perm (d + 1) A).symm.map _)
    rw [hypeLoopRec_eq_of_sorted_perm (d + 1) (coord ref (d + 1)) _ _ _ hperm
      (sortByDim_sorted (d + 1) _)
      (sorted_map_relabel (d + 1) σ _ (sortByDim_sorted (d + 1) A))
      (fun M1 M2 hp => hypeSub_perm_invariant k alpha ref d M1 M2 hp)]
    have h1 := congrFun
      (hypeLoopRec_eq_sum (d + 1) (coord ref (d + 1))
        (fun B => hypeSub k alpha ref d B)
        ((sortByDim (d + 1) A).map (fun p => (p.1, σ p.2)))) (σ j)
    have h2 := congrFun
      (hypeLoopRec_eq_sum (d + 1) (coord ref (d + 1))
        (fun B => hypeSub k alpha ref d B) (sortByDim (d + 1) A)) j
    rw [h1, h2, List.length_map]
    apply Finset.sum_congr rfl
    intro i _
    rw [extrusion_map_relabel]
    rw [← List.map_take]
    rw [ih]

/-- Zipping a list with its position range is a map over the range. -/
theorem zip_range_eq_map (l : Front) :
    l.zip (List.range l.length) =
      (List.range l.length).map (fun i => (l.getD i [], i)) := by
  apply List.ext_getElem
  · simp
  · intro i h1 h2
    rw [List.getElem_zip, List.getElem_map, List.getElem_range]
    rw [List.length_zip, List.length_range, Nat.min_self] at h1
    rw [List.getD_eq_getElem _ _ h1]

/-- Reading a mapped range at a valid position gives the mapped value. -/
theorem map_range_getD {α : Type} (g : ℕ → α) (N i : ℕ) (dflt : α) (hi : i < N) :
    ((List.range N).map g).getD i dflt = g i := by
  rw [List.getD_eq_getElem _ _ (by simpa using hi), List.getElem_map,
    List.getElem_range]

/-- A permutation of the naturals that maps the first N positions into
themselves permutes the position list. -/
theorem map_perm_range (σ : Equiv.Perm ℕ) (N : ℕ) (hσ : ∀ i < N, σ i < N) :
    ((List.range N).map (fun i => σ i)).Perm (List.range N) := by
  apply (List.perm_ext_iff_of_nodup ((List.nodup_range N).map σ.injective)
    (List.nodup_range N)).mpr
  intro x
  constructor
  · intro hx
    obtain ⟨i, hi, rfl⟩ := List.mem_map.mp hx
    exact List.mem_range.mpr (hσ i (List.mem_range.mp hi))
  · intro hx
    rw [List.mem_range] at hx
    have himg : Finset.image (fun i => σ i) (Finset.range N) = Finset.range N := by
      apply Finset.eq_of_subset_of_card_le
      · intro y hy
        obtain ⟨i, hi, rfl⟩ := Finset.mem_image.mp hy
        exact Finset.mem_range.mpr (hσ i (Finset.mem_range.mp hi))
      · rw [Finset.card_image_of_injective _ σ.injective]
    have hx2 : x ∈ Finset.image (fun i => σ i) (Finset.range N) := by
      rw [himg]
      exact Finset.mem_range.mpr hx
    obtain ⟨i, hi, rfl⟩ := Finset.mem_image.mp hx2
    exact List.mem_map.mpr ⟨i, List.mem_range.mpr (Finset.mem_range.mp hi), rfl⟩

/-- Entry access into the exact indicator vector. -/
theorem hypeIndicatorExact_getD (P : Front) (k : ℕ) (ref : Point) (j : ℕ)
    (hj : j < P.length) :
    (hypeIndicatorExact P k ref).getD j 0 =
      hypeSub k (alphaExact P.length k) ref ((P.headD []).length - 1)
        (P.zip (List.range P.length)) j := by
  have h0 : hypeIndicatorExact P k ref = (List.range P.length).map
      (hypeSub k (alphaExact P.length k) ref ((P.headD []).length - 1)
        (P.zip (List.range P.length))) := rfl
  rw [h0, map_range_getD _ _ _ _ hj]

/-- Reading the head with a default is reading position 0 with a default. -/
theorem headD_eq_getD {α : Type} (l : List α) (dflt : α) :
    l.headD dflt = l.getD 0 dflt := by
  cases l <;> rfl

/-! ### Claim theorems -/

/-- C1: for every front, every k and every reference point,
`hypeIndicatorExact` computes its result by the recursive `hypeSub`:
sort the current subset ascending by the active dimension permuting the
index map identically; the extrusion at sorted position i is the gap to
the next coordinate, or to the reference coordinate for the last point;
with activeDim = 0 and i+1 at most k, add extrusion times alpha i to the
accumulator of each of the first i+1 sorted points at their original
indices; with activeDim positive, add extrusion times the recursive
result on the first i+1 sorted rows with activeDim-1 exactly when the
extrusion is positive, making no recursive call otherwise.  The top-level
call uses the full front, activeDim = dim-1 and the identity index map. -/
theorem C1_exact_follows_hypeSub :
    (∀ (k : ℕ) (alpha : ℕ → ℚ) (ref : Point) (d : ℕ) (A : List IdxPoint) (j : ℕ),
        hypeSub k alpha ref d A j = hypeSubClaim k alpha ref d A j) ∧
    (∀ (points : Front) (k : ℕ) (ref : Point),
        hypeIndicatorExact points k ref =
          (List.range points.length).map
            (hypeSubClaim k (alphaExact points.length k) ref
              ((points.headD []).length - 1)
              (points.zip (List.range points.length)))) := by
  constructor
  · exact hypeSub_eq_claim
  · intro points k ref
    unfold hypeIndicatorExact
    exact List.map_congr_left fun j _ => hypeSub_eq_claim _ _ _ _ _ _

/-- C2: for N at least 1 and k in the range 1..N, `hypeIndicatorExact`
and `hypeIndicatorSampled` compute the same alpha vector, whose raw
entries satisfy alpha 0 = 1, the recurrence
alpha i = alpha (i-1) * (k-i)/(N-i) on 1 <= i < k, vanish from k on, and
are finally divided by i+1; the vector depends only on N and k. -/
theorem C2_alpha_recurrence (N k : ℕ) (h1 : 1 ≤ k) (_h2 : k ≤ N) :
    (∀ i, alphaSampled N k i = alphaExact N k i) ∧
    alphaRawExact N k 0 = 1 ∧
    (∀ i, 1 ≤ i → i < k →
      alphaRawExact N k i =
        alphaRawExact N k (i - 1) * (((k : ℚ) - i) / ((N : ℚ) - i))) ∧
    (∀ i, k ≤ i → alphaRawExact N k i = 0) ∧
    (∀ i, alphaExact N k i = alphaRawExact N k i / ((i : ℚ) + 1)) := by
  refine ⟨?_, rfl, ?_, ?_, fun i => rfl⟩
  · intro i
    unfold alphaSampled alphaExact
    rw [alphaRaw_sampled_eq_exact]
  · intro i hi hik
    obtain ⟨j, rfl⟩ : ∃ j, i = j + 1 := ⟨i - 1, (Nat.succ_pred_eq_of_pos hi).symm⟩
    rw [alphaRawExact, if_pos hik]
    push_cast
    ring
  · intro i hki
    have hi : 1 ≤ i := le_trans h1 hki
    obtain ⟨j, rfl⟩ : ∃ j, i = j + 1 := ⟨i - 1, (Nat.succ_pred_eq_of_pos hi).symm⟩
    rw [alphaRawExact, if_neg (by omega)]

/-- C2 witness: the theorem at N = 3, k = 2, with the hypotheses
discharged there. -/
theorem C2_alpha_recurrence_witness :
    (1 ≤ 2 ∧ 2 ≤ 3) ∧
    ((∀ i, alphaSampled 3 2 i = alphaExact 3 2 i) ∧
      alphaRawExact 3 2 0 = 1 ∧
      (∀ i, 1 ≤ i → i < 2 →
        alphaRawExact 3 2 i =
          alphaRawExact 3 2 (i - 1) * (((2 : ℚ) - i) / ((3 : ℚ) - i))) ∧
      (∀ i, 2 ≤ i → alphaRawExact 3 2 i = 0) ∧
      (∀ i, alphaExact 3 2 i = alphaRawExact 3 2 i / ((i : ℚ) + 1))) :=
  ⟨⟨by decide, by decide⟩, C2_alpha_recurrence 3 2 (by decide) (by decide)⟩

/-- C3 (code bug): at the front of the repository test `testHypeSimple`
with the reference point omitted, the exact and the sampled indicator
fail (the exact algorithm never derives a default and dereferences
`ref[actDim]`; the sampled algorithm computes its default upper bound but
then samples with `ref - BoxL` on the missing argument); only the naive
indicator derives the coordinate-wise maximum default and completes. -/
theorem C3_missing_ref_failure :
    hypeIndicatorExactOpt [[1, 9], [5, 5], [9, 1]] 1 none = none ∧
    hypeIndicatorSampledOpt [[1, 9], [5, 5], [9, 1]] 1 none [[2, 2]] = none ∧
    (hypeIndicatorNaive (fun _ _ => 0) [[1, 9], [5, 5], [9, 1]] none).length = 3 := by
  refine ⟨by with_unfolding_all rfl, by with_unfolding_all rfl, by with_unfolding_all rfl⟩

/-- C4: for every front, rank, reference point and fixed sample matrix,
the sampled indicator assigns front point j the box volume over the
sample count, times the sum over exactly the samples s that the point is
at most in every coordinate, of alpha at one less than the number of
front points dominating s. -/
theorem C4_sampled_monte_carlo_formula (points : Front) (k : ℕ) (ref : Point)
    (S : Front) :
    hypeIndicatorSampledWith points k ref S =
      (List.range points.length).map (fun j =>
        ((List.zipWith (fun u l => u - l) ref (coordMin points)).prod / (S.length : ℚ)) *
          (((List.range S.length).filter
              (fun s => ptLeB (points.headD []).length (points.getD j []) (S.getD s []))).map
            (fun s =>
              alphaSampled points.length k
                ((List.range points.length).countP
                  (fun j2 =>
                    ptLeB (points.headD []).length (points.getD j2 []) (S.getD s [])) - 1))).sum) := by
  have h : ∀ j ∈ List.range points.length,
      (fun j =>
        (((List.range S.length).filter
            (fun s => domB (points.headD []).length (points.getD j []) (S.getD s []))).map
          (fun s =>
            alphaSampled points.length k
              (dominatedCounts points ((points.headD []).length) S s - 1))).sum *
        (List.zipWith (fun u l => u - l) ref (coordMin points)).prod / (S.length : ℚ)) j
      = (fun j =>
        ((List.zipWith (fun u l => u - l) ref (coordMin points)).prod / (S.length : ℚ)) *
          (((List.range S.length).filter
              (fun s => ptLeB (points.headD []).length (points.getD j []) (S.getD s []))).map
            (fun s =>
              alphaSampled points.length k
                ((List.range points.length).countP
                  (fun j2 =>
                    ptLeB (points.headD []).length (points.getD j2 []) (S.getD s [])) - 1))).sum) j := by
    intro j hj
    simp only [dominatedCounts_eq, domB_eq_ptLeB]
    ring
  exact List.map_congr_left h

/-- C5 counterexample: with k = 0, outside the range 1..N, the exact
algorithm performs no rank validation and returns an indicator vector
(the all-zero one) instead of failing. -/
theorem C5_counterexample_k_zero :
    hypeIndicatorExactOpt [[1, 9], [5, 5], [9, 1]] 0 (some [10, 10]) = some [0, 0, 0] := by
  with_unfolding_all rfl

/-- C5 amended: there is no dedicated rank validation.  For k above N the
exact and sampled algorithms fail (the alpha loop writes out of bounds),
while for k = 0 both complete and return an indicator vector; the exact
one returns the all-zero vector. -/
theorem C5_rank_handling_amended :
    (∀ (points : Front) (k : ℕ) (ref : Option Point) (S : Front),
        1 ≤ points.length → points.length < k →
        hypeIndicatorExactOpt points k ref = none ∧
        hypeIndicatorSampledOpt points k ref S = none) ∧
    (∀ (points : Front) (ref : Point) (S : Front), 1 ≤ points.length →
        hypeIndicatorExactOpt points 0 (some ref) =
          some (List.replicate points.length 0) ∧
        hypeIndicatorSampledOpt points 0 (some ref) S =
          some (hypeIndicatorSampledWith points 0 ref S)) := by
  constructor
  · intro points k ref S h1 h2
    constructor
    · unfold hypeIndicatorExactOpt
      rw [if_pos (Or.inr h2)]
    · unfold hypeIndicatorSampledOpt
      rw [if_pos (Or.inr h2)]
  · intro points ref S h1
    constructor
    · unfold hypeIndicatorExactOpt
      rw [if_neg (by omega)]
      show some (hypeIndicatorExact points 0 ref) = _
      rw [hypeIndicatorExact_kzero]
    · unfold hypeIndicatorSampledOpt
      rw [if_neg (by omega)]

/-- C10: `hypervolume` returns the first index maximizing the
leave-one-out volume; since the full volume is the same for every index,
that index minimizes the naive contribution (full volume minus
leave-one-out volume), with ties resolved to the smallest index. -/
theorem C10_single_selector_argmax (hvPrim : Front → Point → ℚ) (front : Front)
    (r : Point) (h : 1 ≤ front.length) :
    hypervolume hvPrim front (some r) < front.length ∧
    (∀ i < front.length,
      (looVolumes hvPrim front r).getD i 0 ≤
        (looVolumes hvPrim front r).getD (hypervolume hvPrim front (some r)) 0) ∧
    (∀ i < front.length,
      hvPrim (negFront front) r -
          (looVolumes hvPrim front r).getD (hypervolume hvPrim front (some r)) 0 ≤
        hvPrim (negFront front) r - (looVolumes hvPrim front r).getD i 0) ∧
    (∀ i < hypervolume hvPrim front (some r),
      hvPrim (negFront front) r -
          (looVolumes hvPrim front r).getD (hypervolume hvPrim front (some r)) 0 <
        hvPrim (negFront front) r - (looVolumes hvPrim front r).getD i 0) := by
  have hlen : (looVolumes hvPrim front r).length = front.length := by
    simp [looVolumes]
  obtain ⟨h1, h2, h3⟩ :=
    argmaxAux_spec (looVolumes hvPrim front r) (looVolumes hvPrim front r).length
      (by rw [hlen]; exact h)
  refine ⟨?_, ?_, ?_, ?_⟩
  · show argmaxAux (looVolumes hvPrim front r) (looVolumes hvPrim front r).length
      < front.length
    rw [← hlen]
    exact h1
  · intro i hi
    exact h2 i (by rw [hlen]; exact hi)
  · intro i hi
    exact sub_le_sub_left (h2 i (by rw [hlen]; exact hi)) _
  · intro i hi
    exact sub_lt_sub_left (h3 i hi) _

/-- C10 witness: the theorem at a concrete primitive, front and reference
point, with the hypothesis discharged there. -/
theorem C10_single_selector_argmax_witness :
    1 ≤ 2 ∧
    (hypervolume (fun pts _ => (pts.map List.sum).sum) [[1, 2], [3, 4]] (some [5, 5]) < 2 ∧
      (∀ i < 2,
        (looVolumes (fun pts _ => (pts.map List.sum).sum) [[1, 2], [3, 4]] [5, 5]).getD i 0 ≤
          (looVolumes (fun pts _ => (pts.map List.sum).sum) [[1, 2], [3, 4]] [5, 5]).getD
            (hypervolume (fun pts _ => (pts.map List.sum).sum) [[1, 2], [3, 4]] (some [5, 5])) 0) ∧
      (∀ i < 2,
        (fun pts _ => (pts.map List.sum).sum) (negFront [[1, 2], [3, 4]]) [5, 5] -
            (looVolumes (fun pts _ => (pts.map List.sum).sum) [[1, 2], [3, 4]] [5, 5]).getD
              (hypervolume (fun pts _ => (pts.map List.sum).sum) [[1, 2], [3, 4]] (some [5, 5])) 0 ≤
          (fun pts _ => (pts.map List.sum).sum) (negFront [[1, 2], [3, 4]]) [5, 5] -
            (looVolumes (fun pts _ => (pts.map List.sum).sum) [[1, 2], [3, 4]] [5, 5]).getD i 0) ∧
      (∀ i < hypervolume (fun pts _ => (pts.map List.sum).sum) [[1, 2], [3, 4]] (some [5, 5]),
        (fun pts _ => (pts.map List.sum).sum) (negFront [[1, 2], [3, 4]]) [5, 5] -
            (looVolumes (fun pts _ => (pts.map List.sum).sum) [[1, 2], [3, 4]] [5, 5]).getD
              (hypervolume (fun pts _ => (pts.map List.sum).sum) [[1, 2], [3, 4]] (some [5, 5])) 0 <
          (fun pts _ => (pts.map List.sum).sum) (negFront [[1, 2], [3, 4]]) [5, 5] -
            (looVolumes (fun pts _ => (pts.map List.sum).sum) [[1, 2], [3, 4]] [5, 5]).getD i 0)) :=
  ⟨by decide,
    C10_single_selector_argmax (fun pts _ => (pts.map List.sum).sum)
      [[1, 2], [3, 4]] [5, 5] (by decide)⟩

/-- C6 counterexample: with 2 objectives (below the threshold 4) and
numRemove = 2, `hypervolumeEstX` still collapses to the single-index
selector and returns one index, not the claimed 2-index HypE ranking. -/
theorem C6_counterexample_numRemove_ignored :
    hypervolumeEstX (fun pts _ => (pts.length : ℚ)) [] [[1, 9], [5, 5], [9, 1]]
      (some [10, 10]) 2 4 = some (Sum.inl 0) := by
  with_unfolding_all rfl

/-- C6 amended: the secondary selector collapses to the single-index
exact hypervolume-contribution ranking exactly when the dimensionality is
below the threshold, regardless of numRemove; at or above the threshold
it returns the numRemove-index HypE ranking. -/
theorem C6_dispatch_amended (hvPrim : Front → Point → ℚ) (S : Front)
    (front : Front) (k dimThresh : ℕ) (r : Point) :
    ((front.headD []).length < dimThresh → 1 ≤ front.length →
      hypervolumeEstX hvPrim S front (some r) k dimThresh =
        some (Sum.inl (hypervolume hvPrim front (some r)))) ∧
    (dimThresh ≤ (front.headD []).length → 1 ≤ k → k ≤ front.length →
      ∃ l, hypervolumeEstX hvPrim S front (some r) k dimThresh =
          some (Sum.inr l) ∧ l.length = k) := by
  constructor
  · intro hM hN
    unfold hypervolumeEstX
    rw [if_neg (by omega), if_neg (by omega)]
    unfold hypervolumeOpt
    rw [if_neg (by omega)]
    rfl
  · intro hM hk hkN
    have hN : 1 ≤ front.length := le_trans hk hkN
    unfold hypervolumeEstX
    rw [if_neg (by omega), if_pos hM]
    refine ⟨(argsortList (hypeEstVec S front r k dimThresh)).take k, ?_, ?_⟩
    · unfold hypervolumeEstOpt
      rw [if_neg (by omega)]
      rfl
    · rw [List.length_take, length_argsortList, length_hypeEstVec]
      omega

/-- C6 witness: both branches of the amended theorem at concrete inputs,
with the hypotheses discharged there. -/
theorem C6_dispatch_amended_witness :
    (hypervolumeEstX (fun pts _ => (pts.length : ℚ)) [] [[1, 9], [5, 5], [9, 1]]
        (some [10, 10]) 1 4 =
      some (Sum.inl (hypervolume (fun pts _ => (pts.length : ℚ))
        [[1, 9], [5, 5], [9, 1]] (some [10, 10])))) ∧
    (∃ l, hypervolumeEstX (fun pts _ => (pts.length : ℚ)) [[2, 2, 2, 2]]
        [[1, 9, 2, 3], [5, 5, 5, 5]] (some [10, 10, 10, 10]) 2 4 =
          some (Sum.inr l) ∧ l.length = 2) :=
  ⟨(C6_dispatch_amended (fun pts _ => (pts.length : ℚ)) [] [[1, 9], [5, 5], [9, 1]]
      1 4 [10, 10]).1 (by decide) (by decide),
    (C6_dispatch_amended (fun pts _ => (pts.length : ℚ)) [[2, 2, 2, 2]]
      [[1, 9, 2, 3], [5, 5, 5, 5]] 2 4 [10, 10, 10, 10]).2
        (by decide) (by decide) (by decide)⟩

/-- C9: for in-box fronts (every coordinate of every point at most the
corresponding reference coordinate) and k in 1..N, every entry of the
exact indicator, and of the sampled indicator for any sample matrix, is
non-negative. -/
theorem C9_indicator_nonneg (points : Front) (k : ℕ) (ref : Point)
    (_hk : 1 ≤ k) (hkN : k ≤ points.length) (hne : points ≠ [])
    (hshape : ∀ p ∈ points, p.length = ref.length)
    (hbox : ∀ p ∈ points, ∀ d < ref.length, coord p d ≤ coord ref d) :
    (∀ x ∈ hypeIndicatorExact points k ref, 0 ≤ x) ∧
    (∀ S : Front, ∀ x ∈ hypeIndicatorSampledWith points k ref S, 0 ≤ x) :=
  ⟨hypeIndicatorExact_nonneg points k ref hkN hshape hbox,
    fun S => hypeIndicatorSampledWith_nonneg points k ref S hkN hne hshape hbox⟩

/-- C9 witness: the theorem at a concrete in-box front, with the
hypotheses discharged there. -/
theorem C9_indicator_nonneg_witness :
    (∀ x ∈ hypeIndicatorExact [[1, 9], [5, 5], [9, 1]] 1 [10, 10], 0 ≤ x) ∧
    (∀ S : Front, ∀ x ∈ hypeIndicatorSampledWith [[1, 9], [5, 5], [9, 1]] 1 [10, 10] S,
      0 ≤ x) :=
  C9_indicator_nonneg [[1, 9], [5, 5], [9, 1]] 1 [10, 10] (by decide) (by decide)
    (by simp) (by decide)
    (by
      intro p hp d hd
      simp only [List.mem_cons, List.not_mem_nil, or_false] at hp
      have hd2 : d < 2 := by simpa using hd
      rcases hp with rfl | rfl | rfl <;> interval_cases d <;> norm_num [coord])

/-- C8: applying a permutation of the row indices to the front permutes
the exact indicator vector identically: each score follows its point,
not its position. -/
theorem C8_exact_perm_equivariant (points : Front) (k : ℕ) (ref : Point)
    (σ : Equiv.Perm ℕ) (hσ : ∀ i < points.length, σ i < points.length)
    (hk : 1 ≤ k) (hkN : k ≤ points.length)
    (huni : ∀ p ∈ points, p.length = (points.headD []).length) :
    hypeIndicatorExact
        ((List.range points.length).map (fun i => points.getD (σ i) [])) k ref
      = (List.range points.length).map
          (fun j => (hypeIndicatorExact points k ref).getD (σ j) 0) := by
  have hN : 1 ≤ points.length := le_trans hk hkN
  have hlen' : ((List.range points.length).map
      (fun i => points.getD (σ i) [])).length = points.length := by simp
  have hhead : (((List.range points.length).map
      (fun i => points.getD (σ i) [])).headD []).length = (points.headD []).length := by
    rw [headD_eq_getD, map_range_getD _ _ _ _ hN]
    have hσ0 : σ 0 < points.length := hσ 0 hN
    have hmem : points.getD (σ 0) [] ∈ points := by
      rw [List.getD_eq_getElem _ _ hσ0]
      exact List.getElem_mem hσ0
    exact huni _ hmem
  have hA : ((List.range points.length).map (fun i => points.getD (σ i) [])).zip
      (List.range points.length)
      = (List.range points.length).map (fun i => (points.getD (σ i) [], i)) := by
    have h1 := zip_range_eq_map
      ((List.range points.length).map (fun i => points.getD (σ i) []))
    rw [hlen'] at h1
    rw [h1]
    apply List.map_congr_left
    intro i hi
    rw [List.mem_range] at hi
    rw [map_range_getD _ _ _ _ hi]
  have hperm2 : (((List.range points.length).map
        (fun i => (points.getD (σ i) [], i))).map
          (fun p : IdxPoint => (p.1, σ p.2))).Perm
      (points.zip (List.range points.length)) := by
    have he : ((List.range points.length).map
          (fun i => (points.getD (σ i) [], i))).map
            (fun p : IdxPoint => (p.1, σ p.2))
        = ((List.range points.length).map (fun i => σ i)).map
            (fun x => (points.getD x [], x)) := by
      rw [List.map_map, List.map_map]
      rfl
    rw [he]
    have h2 := (map_perm_range σ points.length hσ).map
      (fun x => (points.getD x [], x))
    have h3 : (List.range points.length).map (fun x => (points.getD x [], x))
        = points.zip (List.range points.length) :=
      (zip_range_eq_map points).symm
    rw [← h3]
    exact h2
  have hLHS : hypeIndicatorExact
      ((List.range points.length).map (fun i => points.getD (σ i) [])) k ref
      = (List.range points.length).map (fun j =>
          hypeSub k (alphaExact points.length k) ref
            ((points.headD []).length - 1)
            (points.zip (List.range points.length)) (σ j)) := by
    have h0 : hypeIndicatorExact
        ((List.range points.length).map (fun i => points.getD (σ i) [])) k ref
        = (List.range (((List.range points.length).map
            (fun i => points.getD (σ i) [])).length)).map
          (hypeSub k (alphaExact (((List.range points.length).map
              (fun i => points.getD (σ i) [])).length) k) ref
            (((((List.range points.length).map
              (fun i => points.getD (σ i) [])).headD []).length) - 1)
            (((List.range points.length).map (fun i => points.getD (σ i) [])).zip
              (List.range (((List.range points.length).map
                (fun i => points.getD (σ i) [])).length)))) := rfl
    rw [h0, hlen', hhead, hA]
    apply List.map_congr_left
    intro j hj
    rw [List.mem_range] at hj
    calc hypeSub k (alphaExact points.length k) ref
          ((points.headD []).length - 1)
          ((List.range points.length).map (fun i => (points.getD (σ i) [], i))) j
        = hypeSub k (alphaExact points.length k) ref
            ((points.headD []).length - 1)
            (((List.range points.length).map
              (fun i => (points.getD (σ i) [], i))).map
                (fun p : IdxPoint => (p.1, σ p.2))) (σ j) :=
          (hypeSub_relabel k (alphaExact points.length k) ref σ σ.injective
            ((points.headD []).length - 1) _ j).symm
      _ = hypeSub k (alphaExact points.length k) ref
            ((points.headD []).length - 1)
            (points.zip (List.range points.length)) (σ j) := by
          rw [hypeSub_perm_invariant k (alphaExact points.length k) ref
            ((points.headD []).length - 1) _ _ hperm2]
  rw [hLHS]
  apply List.map_congr_left
  intro j hj
  rw [List.mem_range] at hj
  exact (hypeIndicatorExact_getD points k ref (σ j) (hσ j hj)).symm

/-- C8 witness: the theorem at the concrete front and the transposition
of the first two rows, with the hypotheses discharged there. -/
theorem C8_exact_perm_equivariant_witness :
    hypeIndicatorExact
        ((List.range 3).map
          (fun i => List.getD [[1, 9], [5, 5], [9, 1]] (Equiv.swap 0 1 i) []))
        1 [10, 10]
      = (List.range 3).map
          (fun j => (hypeIndicatorExact [[1, 9], [5, 5], [9, 1]] 1 [10, 10]).getD
            (Equiv.swap 0 1 j) 0) :=
  C8_exact_perm_equivariant [[1, 9], [5, 5], [9, 1]] 1 [10, 10] (Equiv.swap 0 1)
    (by
      intro i hi
      have hi3 : i < 3 := by simpa using hi
      show Equiv.swap 0 1 i < 3
      interval_cases i <;> simp [Equiv.swap_apply_def])
    (by decide) (by decide) (by decide)

/-- C5 witness: the amended theorem applied at concrete inputs, with the
hypotheses discharged there. -/
theorem C5_rank_handling_amended_witness :
    (hypeIndicatorExactOpt [[1, 9], [5, 5], [9, 1]] 4 (some [10, 10]) = none ∧
      hypeIndicatorSampledOpt [[1, 9], [5, 5], [9, 1]] 4 (some [10, 10]) [[2, 2]] = none) ∧
    (hypeIndicatorExactOpt [[2, 3]] 0 (some [4, 4]) = some (List.replicate 1 0) ∧
      hypeIndicatorSampledOpt [[2, 3]] 0 (some [4, 4]) [[3, 3]] =
        some (hypeIndicatorSampledWith [[2, 3]] 0 [4, 4] [[3, 3]])) :=
  ⟨C5_rank_handling_amended.1 [[1, 9], [5, 5], [9, 1]] 4 (some [10, 10]) [[2, 2]]
      (by decide) (by decide),
    C5_rank_handling_amended.2 [[2, 3]] [4, 4] [[3, 3]] (by decide)⟩

end Deap
